import Mathlib

/-!
Shallow embedding of the hache persistent memoization library
(src/hache/hache.py and src/py-persistent/py-persistent.py).

The in-memory cache is a `collections.OrderedDict`; we model it as an
association list `OD V` whose front is the oldest (least recently used)
entry and whose back is the most recently used one.  The SQLite database
is modelled as a `DB` record holding the `Hashes` table (function name to
description hash) and one rows table per function namespace.  Exceptions
raised by the wrapped computation are modelled with `Except`, and the
`KeyError` that `OrderedDict.popitem` raises on an empty dictionary with
the dedicated constructor `CallErr.keyError`.
-/

set_option autoImplicit false

namespace Hache

/-! ## Value kinds and the blob codec (to_blob / from_blob) -/

/-- The value kinds a computation can declare (the `blob_type` argument of
the decorator): `kint` for scalar numbers, `kndarray` for numpy arrays,
`kstr` as a representative further kind that takes the generic else branch
in hache.py and is unsupported in py-persistent.py. -/
inductive BlobKind where
  | kint
  | kndarray
  | kstr
  deriving DecidableEq

/-- A numpy array, reduced to the data the codec round-trips: a shape and
the flattened entries. -/
structure NDArray where
  shape : List Nat
  data : List Int
  deriving DecidableEq

/-- Modelled from the spec: `np.save` of the external numpy library, the
binary serialization used by to_blob for the `kndarray` kind.  The blob is
self-delimiting: the number of dimensions, then the shape, then the data. -/
def npSave (a : NDArray) : List Int :=
  (a.shape.length : Int) :: (a.shape.map Int.ofNat ++ a.data)

/-- Modelled from the spec: `np.load` of the external numpy library.
Returns `none` (numpy raises) on blobs that are not well-formed saves. -/
def npLoad (blob : List Int) : Option NDArray :=
  match blob with
  | [] => none
  | n :: rest =>
    if 0 ≤ n ∧ n.toNat ≤ rest.length ∧ (∀ x ∈ rest.take n.toNat, 0 ≤ x) then
      some ⟨(rest.take n.toNat).map Int.toNat, rest.drop n.toNat⟩
    else none

/-- The Lean type of the values a computation of the given kind returns. -/
def ValueTy : BlobKind → Type
  | .kint => Int
  | .kndarray => NDArray
  | .kstr => String

/-- The Lean type of the stored blob for each kind.  For `kndarray` the
blob is the serialized byte sequence; every other kind is passed through
unchanged by the codec, so its blob type is its value type. -/
def BlobTy : BlobKind → Type
  | .kint => Int
  | .kndarray => List Int
  | .kstr => String

instance (bt : BlobKind) : DecidableEq (ValueTy bt) :=
  match bt with
  | .kint => inferInstanceAs (DecidableEq Int)
  | .kndarray => inferInstanceAs (DecidableEq NDArray)
  | .kstr => inferInstanceAs (DecidableEq String)

instance (bt : BlobKind) : DecidableEq (BlobTy bt) :=
  match bt with
  | .kint => inferInstanceAs (DecidableEq Int)
  | .kndarray => inferInstanceAs (DecidableEq (List Int))
  | .kstr => inferInstanceAs (DecidableEq String)

/-- hache.py `to_blob`: dispatch on the declared kind; numpy arrays are
serialized with `np.save`, everything else is returned unchanged. -/
def to_blob : (bt : BlobKind) → ValueTy bt → BlobTy bt
  | .kndarray, result => npSave result
  | .kint, result => result
  | .kstr, result => result

/-- hache.py `from_blob`: numpy arrays are deserialized with `np.load`
(which can raise, hence `Option`), everything else is returned unchanged. -/
def from_blob : (bt : BlobKind) → BlobTy bt → Option (ValueTy bt)
  | .kndarray, blob => npLoad blob
  | .kint, blob => some blob
  | .kstr, blob => some blob

/-- py-persistent.py `to_blob`: only `int` and `np.ndarray` have branches;
for any other kind the function falls off the end and silently returns
the Python value `None`, modelled as `Option.none`. -/
def pyToBlob : (bt : BlobKind) → ValueTy bt → Option (BlobTy bt)
  | .kint, result => some result
  | .kndarray, result => some (npSave result)
  | .kstr, _ => none

/-- py-persistent.py `from_blob`: `none` covers both the implicit `None`
returned for kinds without a branch and a failing `np.load`. -/
def pyFromBlob : (bt : BlobKind) → BlobTy bt → Option (ValueTy bt)
  | .kint, blob => some blob
  | .kndarray, blob => npLoad blob
  | .kstr, _ => none

/-! ## The in-memory cache: collections.OrderedDict -/

/-- An `OrderedDict` keyed by hash-key strings: an association list in
insertion order, oldest entry first. -/
abbrev OD (V : Type) := List (String × V)

/-- Dictionary lookup `d[k]` / `k in d` (first entry with the key). -/
def odLookup {V : Type} : OD V → String → Option V
  | [], _ => none
  | (k₂, v) :: rest, k => if k₂ = k then some v else odLookup rest k

/-- Dictionary assignment `d[k] = v`: replaces in place when the key is
present, appends at the (most recently used) end otherwise. -/
def odInsert {V : Type} : OD V → String → V → OD V
  | [], k, v => [(k, v)]
  | (k₂, v₂) :: rest, k, v =>
    if k₂ = k then (k₂, v) :: rest else (k₂, v₂) :: odInsert rest k v

/-- Removal of the entry with the given key (used to model
`move_to_end`, which removes the entry and re-appends it at the end). -/
def odRemove {V : Type} : OD V → String → OD V
  | [], _ => []
  | (k₂, v₂) :: rest, k => if k₂ = k then rest else (k₂, v₂) :: odRemove rest k

/-- The keys of a cache, in order. -/
def keysOf {V : Type} (c : OD V) : List String :=
  c.map Prod.fst

/-! ## The wrapper (one memoized call) -/

/-- The errors a single call can surface: an exception raised by the
wrapped computation, or the `KeyError` that `OrderedDict.popitem` raises
on an empty dictionary. -/
inductive CallErr (E : Type) where
  | user : E → CallErr E
  | keyError : CallErr E
  deriving DecidableEq

/-- hache.py `wrapper` body, for one call whose derived hash key is `k`.
The wrapped computation `f` threads an explicit internal state `σ` (for
instance a call counter) and may raise.  On a hit the entry is moved to
the end and its value returned; on a miss the computation runs, then if
`len(cache) >= max_size` the least recently used entry is popped
(`popitem(last=False)`, a `KeyError` when the cache is empty), and the
result is inserted. -/
def wrapper {σ E V : Type} (maxSize : Nat) (f : σ → String → σ × Except E V)
    (s : σ) (cache : OD V) (k : String) : σ × OD V × Except (CallErr E) V :=
  match odLookup cache k with
  | some v => (s, odRemove cache k ++ [(k, v)], Except.ok v)
  | none =>
    match f s k with
    | (s₂, Except.error e) => (s₂, cache, Except.error (CallErr.user e))
    | (s₂, Except.ok result) =>
      if maxSize ≤ cache.length then
        match cache with
        | [] => (s₂, cache, Except.error CallErr.keyError)
        | _ :: rest => (s₂, odInsert rest k result, Except.ok result)
      else (s₂, odInsert cache k result, Except.ok result)

/-- A computation that never raises and never changes its state, returning
`val k` on key `k` (used to run call sequences). -/
def pureF {V : Type} (val : String → V) : Unit → String → Unit × Except Unit V :=
  fun s k => (s, Except.ok (val k))

/-- One step of a call sequence: run the wrapper and keep the new
computation state and cache. -/
def callStep {σ E V : Type} (maxSize : Nat) (f : σ → String → σ × Except E V)
    (p : σ × OD V) (k : String) : σ × OD V :=
  ((wrapper maxSize f p.1 p.2 k).1, (wrapper maxSize f p.1 p.2 k).2.1)

/-- Run a sequence of calls (by derived key) through the wrapper. -/
def runCalls {σ E V : Type} (maxSize : Nat) (f : σ → String → σ × Except E V)
    (s : σ) (cache : OD V) (ks : List String) : σ × OD V :=
  ks.foldl (callStep maxSize f) (s, cache)

/-! ## Key derivation -/

/-- hache.py `wrapper` lines 145-146: the hash input is
`str(args) + str(kwargs)` and the key its md5 hex digest.  The textual
rendering of the argument tuple and of the keyword mapping, and the md5
digest itself, are fixed external functions passed as parameters. -/
def derive_key {α β : Type} (md5hex : String → String) (strOfArgs : α → String)
    (strOfKwargs : β → String) (args : α) (kwargs : β) : String :=
  md5hex (strOfArgs args ++ strOfKwargs kwargs)

/-! ## The SQLite database and the persistence functions -/

/-- The database file: the `Hashes` table mapping function name to
description hash, and one rows table per function namespace (blobs of
type `B`). -/
structure DB (B : Type) where
  hashes : OD String
  tables : OD (OD B)
  deriving DecidableEq

/-- hache.py `function_setup`: look up the stored description hash for the
function; if absent, create the namespace table if needed and record the
hash; if present and different from the current hash, drop the table,
recreate it empty and record the new hash; otherwise leave everything
unchanged. -/
def function_setup {B : Type} (fname current_hash : String) (db : DB B) : DB B :=
  match odLookup db.hashes fname with
  | none =>
    { hashes := odInsert db.hashes fname current_hash
      tables :=
        match odLookup db.tables fname with
        | some _ => db.tables
        | none => odInsert db.tables fname [] }
  | some stored_hash =>
    if stored_hash = current_hash then db
    else
      { hashes := odInsert db.hashes fname current_hash
        tables := odInsert db.tables fname [] }

/-- The loading loop of `load_cache_with_hash`: decode each row in order
into the `OrderedDict`; a failing decode aborts the load (`none`). -/
def load_rows (bt : BlobKind) (acc : OD (ValueTy bt)) :
    List (String × BlobTy bt) → Option (OD (ValueTy bt))
  | [] => some acc
  | row :: rest =>
    match from_blob bt row.2 with
    | none => none
    | some v => load_rows bt (odInsert acc row.1 v) rest

/-- Decode a full namespace table into a fresh cache. -/
def load_cache (bt : BlobKind) (rows : List (String × BlobTy bt)) :
    Option (OD (ValueTy bt)) :=
  load_rows bt [] rows

/-- hache.py `load_cache_with_hash`: run `function_setup`, then read and
decode every row of the namespace table. -/
def load_cache_with_hash (bt : BlobKind) (fname current_hash : String)
    (db : DB (BlobTy bt)) : DB (BlobTy bt) × Option (OD (ValueTy bt)) :=
  let db₂ := function_setup fname current_hash db
  (db₂, load_cache bt ((odLookup db₂.tables fname).getD []))

/-- The saving loop of `save_cache_with_hash`: `INSERT OR REPLACE` each
cache entry, encoded, into the namespace table. -/
def upsert_rows (bt : BlobKind) (rows : OD (BlobTy bt))
    (cache : OD (ValueTy bt)) : OD (BlobTy bt) :=
  cache.foldl (fun rs kv => odInsert rs kv.1 (to_blob bt kv.2)) rows

/-- hache.py `save_cache_with_hash`: run `function_setup`, then upsert
every in-memory cache entry into the namespace table.  Rows already in
the table and not overwritten are kept (the code never deletes them). -/
def save_cache_with_hash (bt : BlobKind) (fname current_hash : String)
    (cache : OD (ValueTy bt)) (db : DB (BlobTy bt)) : DB (BlobTy bt) :=
  let db₂ := function_setup fname current_hash db
  let rows := upsert_rows bt ((odLookup db₂.tables fname).getD []) cache
  { db₂ with tables := odInsert db₂.tables fname rows }

/-! ## Registration (the decorator) -/

/-- The registration step of the decorators `hache` (hache.py) and
`cache_with_hash` (py-persistent.py): the decorator body only loads the
cache and returns the wrapper; it performs no validation of the declared
kind. -/
def decorator_attach (bt : BlobKind) (fname current_hash : String)
    (db : DB (BlobTy bt)) : DB (BlobTy bt) × Option (OD (ValueTy bt)) :=
  load_cache_with_hash bt fname current_hash db

/-- The kinds for which py-persistent.py declares codec branches. -/
def supportedKinds : List BlobKind :=
  [BlobKind.kint, BlobKind.kndarray]

/-- Modelled from the spec: the registration-time kind validation that
section 4.5 requires ("Unsupported kinds fail fast at registration time,
not at first use") is absent from the source; this definition follows the
words of the spec, for comparison with `decorator_attach`. -/
def attach_spec (bt : BlobKind) (fname current_hash : String)
    (db : DB (BlobTy bt)) : Option (DB (BlobTy bt) × Option (OD (ValueTy bt))) :=
  if bt ∈ supportedKinds then some (load_cache_with_hash bt fname current_hash db)
  else none

/-! ## Helper lemmas about the OrderedDict model -/

theorem odLookup_insert_self {V : Type} (c : OD V) (k : String) (v : V) :
    odLookup (odInsert c k v) k = some v := by
  induction c with
  | nil => simp [odInsert, odLookup]
  | cons hd tl ih =>
    by_cases h : hd.1 = k
    · simp [odInsert, odLookup, h]
    · simp [odInsert, odLookup, h, ih]

theorem odLookup_insert_ne {V : Type} (c : OD V) (k₂ k : String) (v : V)
    (h : k₂ ≠ k) : odLookup (odInsert c k₂ v) k = odLookup c k := by
  induction c with
  | nil => simp [odInsert, odLookup, h]
  | cons hd tl ih =>
    rcases hd with ⟨k₃, v₃⟩
    by_cases h₂ : k₃ = k₂
    · have h₃ : k₃ ≠ k := by rw [h₂]; exact h
      simp [odInsert, odLookup, h₂, h₃, h]
    · by_cases h₃ : k₃ = k
      · simp [odInsert, odLookup, h₂, h₃, Ne.symm h]
      · simp [odInsert, odLookup, h₂, h₃, ih]

theorem odLookup_eq_none_iff {V : Type} (c : OD V) (k : String) :
    odLookup c k = none ↔ k ∉ keysOf c := by
  induction c with
  | nil => simp [odLookup, keysOf]
  | cons hd tl ih =>
    rcases hd with ⟨k₃, v₃⟩
    by_cases h : k₃ = k
    · simp [odLookup, keysOf, h]
    · simp [odLookup, keysOf, h, ih, Ne.symm h]

theorem odInsert_fresh {V : Type} (c : OD V) (k : String) (v : V)
    (h : odLookup c k = none) : odInsert c k v = c ++ [(k, v)] := by
  induction c with
  | nil => simp [odInsert]
  | cons hd tl ih =>
    rcases hd with ⟨k₃, v₃⟩
    by_cases h₂ : k₃ = k
    · simp [odLookup, h₂] at h
    · simp only [odLookup, if_neg h₂] at h
      simp [odInsert, h₂, ih h]

theorem odLookup_append {V : Type} (c₁ c₂ : OD V) (k : String)
    (h : odLookup c₁ k = none) : odLookup (c₁ ++ c₂) k = odLookup c₂ k := by
  induction c₁ with
  | nil => simp
  | cons hd tl ih =>
    rcases hd with ⟨k₃, v₃⟩
    by_cases h₂ : k₃ = k
    · simp [odLookup, h₂] at h
    · simp only [odLookup, if_neg h₂] at h
      simp [odLookup, h₂, ih h]

theorem odLookup_map_self {V : Type} (val : String → V) (l : List String)
    (k : String) (h : k ∈ l) :
    odLookup (l.map fun k₂ => (k₂, val k₂)) k = some (val k) := by
  induction l with
  | nil => simp at h
  | cons hd tl ih =>
    by_cases h₂ : hd = k
    · subst h₂; simp [odLookup]
    · have h₃ : k ∈ tl := by
        rcases List.mem_cons.mp h with h₄ | h₄
        · exact absurd h₄.symm h₂
        · exact h₄
      simp [odLookup, h₂, ih h₃]

theorem odLookup_map_none {V : Type} (val : String → V) (l : List String)
    (k : String) (h : k ∉ l) :
    odLookup (l.map fun k₂ => (k₂, val k₂)) k = none := by
  induction l with
  | nil => simp [odLookup]
  | cons hd tl ih =>
    simp only [List.mem_cons, not_or] at h
    have h₂ : hd ≠ k := fun hh => h.1 hh.symm
    simp [odLookup, h₂, ih h.2]

theorem mem_odInsert {V : Type} (c : OD V) (k : String) (v : V)
    (r : String × V) (h : r ∈ odInsert c k v) : r ∈ c ∨ r = (k, v) := by
  induction c with
  | nil => simpa [odInsert] using h
  | cons hd tl ih =>
    rcases hd with ⟨k₃, v₃⟩
    by_cases h₂ : k₃ = k
    · simp only [odInsert, if_pos h₂, List.mem_cons] at h
      rcases h with h | h
      · right; rw [h, h₂]
      · left; exact List.mem_cons_of_mem _ h
    · simp only [odInsert, if_neg h₂, List.mem_cons] at h
      rcases h with h | h
      · left; simp [h]
      · rcases ih h with h₃ | h₃
        · left; exact List.mem_cons_of_mem _ h₃
        · right; exact h₃

theorem keysOf_insert_of_mem {V : Type} (c : OD V) (k : String) (v : V)
    (h : odLookup c k ≠ none) : keysOf (odInsert c k v) = keysOf c := by
  induction c with
  | nil => simp [odLookup] at h
  | cons hd tl ih =>
    rcases hd with ⟨k₃, v₃⟩
    by_cases h₂ : k₃ = k
    · simp [odInsert, keysOf, h₂]
    · simp only [odLookup, if_neg h₂] at h
      have h₃ := ih h
      simp only [keysOf] at h₃
      simp [odInsert, keysOf, h₂, h₃]

theorem keysOf_insert_nodup {V : Type} (c : OD V) (k : String) (v : V)
    (h : (keysOf c).Nodup) : (keysOf (odInsert c k v)).Nodup := by
  by_cases hmem : odLookup c k = none
  · rw [odInsert_fresh c k v hmem]
    have hk : k ∉ keysOf c := (odLookup_eq_none_iff c k).mp hmem
    have : keysOf (c ++ [(k, v)]) = keysOf c ++ [k] := by simp [keysOf]
    rw [this, List.nodup_append]
    exact ⟨h, List.nodup_singleton k, by simpa [List.disjoint_singleton] using hk⟩
  · rw [keysOf_insert_of_mem c k v hmem]
    exact h

/-! ## Helper lemmas about the blob codec -/

theorem npLoad_npSave (a : NDArray) : npLoad (npSave a) = some a := by
  have h₁ : ((a.shape.length : Int)).toNat = a.shape.length := rfl
  have h₂ : (a.shape.map Int.ofNat ++ a.data).take a.shape.length
      = a.shape.map Int.ofNat := by
    rw [← List.length_map a.shape Int.ofNat]
    exact List.take_left _ _
  have h₃ : (a.shape.map Int.ofNat ++ a.data).drop a.shape.length = a.data := by
    rw [← List.length_map a.shape Int.ofNat]
    exact List.drop_left _ _
  have h₄ : ∀ x ∈ a.shape.map Int.ofNat, (0:Int) ≤ x := by
    intro x hx
    rcases List.mem_map.mp hx with ⟨s, hs, rfl⟩
    exact Int.ofNat_nonneg s
  have h₅ : a.shape.length ≤ (a.shape.map Int.ofNat ++ a.data).length := by
    simp
  simp only [npSave, npLoad, h₁, h₂, h₃]
  rw [if_pos ⟨Int.ofNat_nonneg _, h₅, h₄⟩]
  simp [List.map_map, Function.comp_def]

theorem npSave_npLoad (b : List Int) (a : NDArray) (h : npLoad b = some a) :
    npSave a = b := by
  match b with
  | [] => simp [npLoad] at h
  | n :: rest =>
    simp only [npLoad] at h
    split at h
    case isTrue hc =>
      obtain ⟨hn, hle, hpos⟩ := hc
      injection h with h
      subst h
      have hlen : ((rest.take n.toNat).map Int.toNat).length = n.toNat := by
        simp [Nat.min_eq_left hle]
      have hcast : ((((rest.take n.toNat).map Int.toNat).length : Nat) : Int) = n := by
        rw [hlen]
        exact Int.toNat_of_nonneg hn
      have hmap : (((rest.take n.toNat).map Int.toNat).map Int.ofNat)
          = rest.take n.toNat := by
        rw [List.map_map]
        have := List.map_congr_left (l := rest.take n.toNat)
          (f := Int.ofNat ∘ Int.toNat) (g := id)
          (fun x hx => Int.toNat_of_nonneg (hpos x hx))
        simpa using this
      simp only [npSave, hcast, hmap]
      rw [List.take_append_drop]
    case isFalse hc => simp at h

theorem from_blob_to_blob (bt : BlobKind) (v : ValueTy bt) :
    from_blob bt (to_blob bt v) = some v := by
  cases bt with
  | kint => rfl
  | kndarray => exact npLoad_npSave v
  | kstr => rfl

theorem to_blob_from_blob (bt : BlobKind) (b : BlobTy bt) (v : ValueTy bt)
    (h : from_blob bt b = some v) : to_blob bt v = b := by
  cases bt with
  | kint =>
    simp only [from_blob, Option.some.injEq] at h
    rw [← h]
    rfl
  | kndarray => exact npSave_npLoad b v h
  | kstr =>
    simp only [from_blob, Option.some.injEq] at h
    rw [← h]
    rfl

/-! ## Helper lemmas about the persistence layer -/

theorem function_setup_unchanged {B : Type} (fname cur : String) (db : DB B)
    (h : odLookup db.hashes fname = some cur) :
    function_setup fname cur db = db := by
  simp [function_setup, h]

theorem upsert_rows_cons (bt : BlobKind) (rows : OD (BlobTy bt))
    (kv : String × ValueTy bt) (rest : OD (ValueTy bt)) :
    upsert_rows bt rows (kv :: rest)
      = upsert_rows bt (odInsert rows kv.1 (to_blob bt kv.2)) rest := rfl

theorem odLookup_upsert_rows_of_ne (bt : BlobKind) (k : String) :
    ∀ (cache : OD (ValueTy bt)) (rows : OD (BlobTy bt)),
      (∀ kv ∈ cache, kv.1 ≠ k) →
      odLookup (upsert_rows bt rows cache) k = odLookup rows k
  | [], rows, _ => rfl
  | kv :: rest, rows, h => by
    rw [upsert_rows_cons]
    rw [odLookup_upsert_rows_of_ne bt k rest _ fun r hr => h r (List.mem_cons_of_mem kv hr)]
    exact odLookup_insert_ne rows kv.1 k _ (h kv (List.mem_cons_self kv rest))

theorem odLookup_upsert_rows_of_mem (bt : BlobKind) :
    ∀ (cache : OD (ValueTy bt)) (rows : OD (BlobTy bt)),
      (keysOf cache).Nodup →
      ∀ kv ∈ cache, odLookup (upsert_rows bt rows cache) kv.1 = some (to_blob bt kv.2)
  | [], _, _, kv, hkv => by simp at hkv
  | hd :: rest, rows, hnd, kv, hkv => by
    simp only [keysOf, List.map_cons, List.nodup_cons] at hnd
    rcases List.mem_cons.mp hkv with h | h
    · subst h
      rw [upsert_rows_cons]
      rw [odLookup_upsert_rows_of_ne bt kv.1 rest _ ?fresh]
      · exact odLookup_insert_self rows kv.1 _
      case fresh =>
        intro r hr hcontra
        exact hnd.1 (hcontra ▸ List.mem_map_of_mem Prod.fst hr)
    · rw [upsert_rows_cons]
      exact odLookup_upsert_rows_of_mem bt rest _ hnd.2 kv h

theorem keysOf_upsert_rows_nodup (bt : BlobKind) :
    ∀ (cache : OD (ValueTy bt)) (rows : OD (BlobTy bt)),
      (keysOf rows).Nodup → (keysOf (upsert_rows bt rows cache)).Nodup
  | [], _, h => h
  | hd :: rest, rows, h => by
    rw [upsert_rows_cons]
    exact keysOf_upsert_rows_nodup bt rest _ (keysOf_insert_nodup rows hd.1 _ h)

theorem mem_upsert_rows (bt : BlobKind) :
    ∀ (cache : OD (ValueTy bt)) (rows : OD (BlobTy bt)) (r : String × BlobTy bt),
      r ∈ upsert_rows bt rows cache →
      r ∈ rows ∨ ∃ kv ∈ cache, r = (kv.1, to_blob bt kv.2)
  | [], _, r, h => Or.inl h
  | hd :: rest, rows, r, h => by
    rw [upsert_rows_cons] at h
    rcases mem_upsert_rows bt rest _ r h with h₂ | h₂
    · rcases mem_odInsert rows hd.1 (to_blob bt hd.2) r h₂ with h₃ | h₃
      · exact Or.inl h₃
      · exact Or.inr ⟨hd, List.mem_cons_self hd rest, h₃⟩
    · rcases h₂ with ⟨kv, hkv, hr⟩
      exact Or.inr ⟨kv, List.mem_cons_of_mem hd hkv, hr⟩

theorem load_rows_total (bt : BlobKind) :
    ∀ (rows : List (String × BlobTy bt)) (acc : OD (ValueTy bt)),
      (∀ r ∈ rows, (from_blob bt r.2).isSome = true) →
      ∃ loaded, load_rows bt acc rows = some loaded
  | [], acc, _ => ⟨acc, rfl⟩
  | row :: rest, acc, h => by
    have hrow := h row (List.mem_cons_self row rest)
    rcases Option.isSome_iff_exists.mp hrow with ⟨v, hv⟩
    rw [load_rows, hv]
    exact load_rows_total bt rest _ fun r hr => h r (List.mem_cons_of_mem row hr)

theorem load_rows_lookup_of_ne (bt : BlobKind) (k : String) :
    ∀ (rows : List (String × BlobTy bt)) (acc loaded : OD (ValueTy bt)),
      load_rows bt acc rows = some loaded →
      (∀ r ∈ rows, r.1 ≠ k) →
      odLookup loaded k = odLookup acc k
  | [], acc, loaded, h, _ => by
    simp only [load_rows, Option.some.injEq] at h
    rw [← h]
  | row :: rest, acc, loaded, h, hk => by
    rw [load_rows] at h
    match hv : from_blob bt row.2 with
    | none => rw [hv] at h; exact absurd h (by simp)
    | some v =>
      rw [hv] at h
      rw [load_rows_lookup_of_ne bt k rest _ loaded h
        fun r hr => hk r (List.mem_cons_of_mem row hr)]
      exact odLookup_insert_ne acc row.1 k v (hk row (List.mem_cons_self row rest))

theorem load_rows_lookup (bt : BlobKind) (k : String) :
    ∀ (rows : List (String × BlobTy bt)) (acc loaded : OD (ValueTy bt))
      (b : BlobTy bt) (v : ValueTy bt),
      load_rows bt acc rows = some loaded →
      (keysOf rows).Nodup →
      odLookup rows k = some b →
      from_blob bt b = some v →
      odLookup loaded k = some v
  | [], _, _, _, _, _, _, hb, _ => by simp [odLookup] at hb
  | row :: rest, acc, loaded, b, v, h, hnd, hb, hv => by
    simp only [keysOf, List.map_cons, List.nodup_cons] at hnd
    rw [load_rows] at h
    by_cases hk : row.1 = k
    · have hb₂ : b = row.2 := by
        rcases row with ⟨k₂, b₂⟩
        simp only [odLookup, if_pos hk, Option.some.injEq] at hb
        rw [hb]
      subst hb₂
      rw [hv] at h
      rw [load_rows_lookup_of_ne bt k rest _ loaded h ?fresh]
      · rw [← hk]
        exact odLookup_insert_self acc row.1 v
      case fresh =>
        intro r hr hcontra
        exact hnd.1 ((hcontra.trans hk.symm) ▸ List.mem_map_of_mem Prod.fst hr)
    · have hb₂ : odLookup rest k = some b := by
        rcases row with ⟨k₂, b₂⟩
        simpa [odLookup, hk] using hb
      match hdec : from_blob bt row.2 with
      | none => rw [hdec] at h; exact absurd h (by simp)
      | some v₂ =>
        rw [hdec] at h
        exact load_rows_lookup bt k rest _ loaded b v h hnd.2 hb₂ hv

/-! ## Helper lemmas about the wrapper -/

theorem wrapper_miss_room {V : Type} (val : String → V) (maxSize : Nat)
    (cache : OD V) (k : String) (hk : odLookup cache k = none)
    (hlen : cache.length < maxSize) :
    wrapper maxSize (pureF val) () cache k
      = ((), cache ++ [(k, val k)], Except.ok (val k)) := by
  simp only [wrapper, hk, pureF]
  rw [if_neg (Nat.not_le.mpr hlen)]
  rw [odInsert_fresh cache k (val k) hk]

theorem runCalls_cons {σ E V : Type} (maxSize : Nat)
    (f : σ → String → σ × Except E V) (s : σ) (cache : OD V)
    (k : String) (ks : List String) :
    runCalls maxSize f s cache (k :: ks)
      = runCalls maxSize f (wrapper maxSize f s cache k).1
          (wrapper maxSize f s cache k).2.1 ks := rfl

theorem runCalls_append {σ E V : Type} (maxSize : Nat)
    (f : σ → String → σ × Except E V) (s : σ) (cache : OD V)
    (ks₁ ks₂ : List String) :
    runCalls maxSize f s cache (ks₁ ++ ks₂)
      = runCalls maxSize f (runCalls maxSize f s cache ks₁).1
          (runCalls maxSize f s cache ks₁).2 ks₂ := by
  simp [runCalls, List.foldl_append]

theorem runCalls_fresh {V : Type} (val : String → V) (maxSize : Nat) :
    ∀ (ks : List String) (cache : OD V),
      ks.Nodup → (∀ k ∈ ks, odLookup cache k = none) →
      cache.length + ks.length ≤ maxSize →
      runCalls maxSize (pureF val) () cache ks
        = ((), cache ++ ks.map fun k => (k, val k))
  | [], cache, _, _, _ => by simp [runCalls]
  | k :: ks, cache, hnd, hfresh, hlen => by
    simp only [List.nodup_cons] at hnd
    have hk := hfresh k (List.mem_cons_self k ks)
    have hlt : cache.length < maxSize := by
      simp only [List.length_cons] at hlen
      omega
    rw [runCalls_cons, wrapper_miss_room val maxSize cache k hk hlt]
    have hres := runCalls_fresh val maxSize ks (cache ++ [(k, val k)]) hnd.2
      (fun k₂ hk₂ => by
        rw [odLookup_append _ _ k₂ (hfresh k₂ (List.mem_cons_of_mem k hk₂))]
        have hne : k ≠ k₂ := fun hcontra => hnd.1 (hcontra ▸ hk₂)
        simp [odLookup, hne])
      (by simp only [List.length_append, List.length_cons,
            List.length_nil] at hlen ⊢; omega)
    rw [hres]
    simp

/-! ## The claims -/

/-- C1: for an attached computation in the Ready state, a call whose
derived key is present in the cache returns the cached value, bumps the
entry to most recently used, and leaves the internal state of the wrapped
computation (for instance an instrumented call counter) unchanged: the
computation is not invoked. -/
theorem hit_returns_cached_without_invoking {σ E V : Type} (maxSize : Nat)
    (f : σ → String → σ × Except E V) (s : σ) (cache : OD V) (k : String) (v : V)
    (h : odLookup cache k = some v) :
    wrapper maxSize f s cache k = (s, odRemove cache k ++ [(k, v)], Except.ok v) := by
  simp [wrapper, h]

/-- Witness for C1: a hit on a concrete cache, with a call-counting
computation whose counter stays at 0. -/
theorem hit_returns_cached_without_invoking_witness :
    odLookup [("k", (5:Nat))] "k" = some 5 ∧
    wrapper 10 (fun (n : Nat) (_ : String) => (n + 1, (Except.ok 7 : Except Unit Nat)))
        0 [("k", (5:Nat))] "k"
      = (0, odRemove [("k", (5:Nat))] "k" ++ [("k", 5)], Except.ok 5) :=
  ⟨by decide,
   hit_returns_cached_without_invoking 10
     (fun (n : Nat) (_ : String) => (n + 1, (Except.ok 7 : Except Unit Nat)))
     0 [("k", (5:Nat))] "k" 5 (by decide)⟩

/-- C7: key derivation is deterministic: identical positional arguments
and identical keyword mappings yield the same derived key.  In the
embedding the argument rendering and the md5 digest are fixed functions
of their input, which is what makes the key stable across repeated calls
and across process restarts. -/
theorem derive_key_deterministic {α β : Type} (md5hex : String → String)
    (strOfArgs : α → String) (strOfKwargs : β → String)
    (a₁ a₂ : α) (b₁ b₂ : β) (ha : a₁ = a₂) (hb : b₁ = b₂) :
    derive_key md5hex strOfArgs strOfKwargs a₁ b₁
      = derive_key md5hex strOfArgs strOfKwargs a₂ b₂ := by
  rw [ha, hb]

/-- Witness for C7 at concrete renderings and a concrete digest. -/
theorem derive_key_deterministic_witness :
    ("x" : String) = "x" ∧
    derive_key (fun s => s ++ "!") (fun a : String => a) (fun b : String => b) "x" "y"
      = derive_key (fun s => s ++ "!") (fun a : String => a) (fun b : String => b) "x" "y" :=
  ⟨rfl, derive_key_deterministic (fun s => s ++ "!") (fun a : String => a)
    (fun b : String => b) "x" "x" "y" "y" rfl rfl⟩

/-- C8: when the underlying computation raises on a miss, the error
propagates unchanged to the caller and the cache is left exactly as it
was before the call: no entry is inserted and no entry is evicted. -/
theorem error_propagates_cache_untouched {σ E V : Type} (maxSize : Nat)
    (f : σ → String → σ × Except E V) (s s₂ : σ) (cache : OD V) (k : String)
    (e : E) (hmiss : odLookup cache k = none)
    (herr : f s k = (s₂, Except.error e)) :
    wrapper maxSize f s cache k = (s₂, cache, Except.error (CallErr.user e)) := by
  simp [wrapper, hmiss, herr]

/-- Witness for C8: a raising computation on a concrete cache. -/
theorem error_propagates_cache_untouched_witness :
    odLookup [("a", (7:Nat))] "b" = none ∧
    wrapper 5 (fun (n : Nat) (_ : String) => (n + 1, (Except.error () : Except Unit Nat)))
        0 [("a", (7:Nat))] "b"
      = (1, [("a", (7:Nat))], Except.error (CallErr.user ())) :=
  ⟨by decide,
   error_propagates_cache_untouched 5
     (fun (n : Nat) (_ : String) => (n + 1, (Except.error () : Except Unit Nat)))
     0 1 [("a", (7:Nat))] "b" () (by decide) rfl⟩

/-- C10: with max_size = 0 and an empty cache, every call (necessarily a
miss) first runs the computation and then raises KeyError from popping
the least recently used item of the empty cache, instead of returning the
computed result, and the cache stays empty; with max_size ≥ 1 the
eviction pop only ever acts on a non-empty cache, so no call raises
KeyError. -/
theorem zero_capacity_popitem_keyerror :
    (∀ (σ E V : Type) (f : σ → String → σ × Except E V) (s s₂ : σ)
      (k : String) (v : V), f s k = (s₂, Except.ok v) →
      wrapper 0 f s [] k = (s₂, [], Except.error CallErr.keyError)) ∧
    (∀ (σ E V : Type) (maxSize : Nat) (f : σ → String → σ × Except E V)
      (s : σ) (cache : OD V) (k : String), 1 ≤ maxSize →
      (wrapper maxSize f s cache k).2.2 ≠ Except.error CallErr.keyError) := by
  constructor
  · intro σ E V f s s₂ k v h
    simp [wrapper, odLookup, h]
  · intro σ E V maxSize f s cache k hm
    cases hl : odLookup cache k with
    | some v => simp [wrapper, hl]
    | none =>
      cases hf : f s k with
      | mk s₂ r =>
        cases r with
        | error e => simp [wrapper, hl, hf]
        | ok v =>
          simp only [wrapper, hl, hf]
          by_cases hlen : maxSize ≤ cache.length
          · rw [if_pos hlen]
            match cache, hlen with
            | [], hlen => simp at hlen; omega
            | hd :: rest, _ => simp
          · rw [if_neg hlen]
            simp

/-- Witness for C10: with capacity 0 a concrete successful miss raises
KeyError and the cache is unchanged; with capacity 2 a concrete call does
not raise KeyError. -/
theorem zero_capacity_popitem_keyerror_witness :
    wrapper 0 (fun (n : Nat) (_ : String) => (n + 1, (Except.ok (42:Nat) : Except Unit Nat)))
        0 [] "k" = (1, [], Except.error CallErr.keyError) ∧
    (wrapper 2 (fun (n : Nat) (_ : String) => (n + 1, (Except.ok (42:Nat) : Except Unit Nat)))
        0 [("a", (7:Nat))] "b").2.2 ≠ Except.error CallErr.keyError :=
  ⟨zero_capacity_popitem_keyerror.1 Nat Unit Nat
     (fun (n : Nat) (_ : String) => (n + 1, (Except.ok (42:Nat) : Except Unit Nat)))
     0 1 "k" 42 rfl,
   zero_capacity_popitem_keyerror.2 Nat Unit Nat 2
     (fun (n : Nat) (_ : String) => (n + 1, (Except.ok (42:Nat) : Except Unit Nat)))
     0 [("a", (7:Nat))] "b" (by omega)⟩

/-- C6: for every supported kind, decoding the encoding of a value yields
the value back, and encoding a value decoded from a stored blob yields
the blob back byte for byte. -/
theorem blob_codec_round_trip :
    (∀ (bt : BlobKind) (v : ValueTy bt), from_blob bt (to_blob bt v) = some v) ∧
    (∀ (bt : BlobKind) (b : BlobTy bt) (v : ValueTy bt),
      from_blob bt b = some v → to_blob bt v = b) :=
  ⟨from_blob_to_blob, to_blob_from_blob⟩

/-- Witness for C6: a concrete array round-trips through the binary kind
and a concrete scalar through the numeric kind. -/
theorem blob_codec_round_trip_witness :
    from_blob BlobKind.kndarray (to_blob BlobKind.kndarray ⟨[2], [3, 4]⟩)
      = some ⟨[2], [3, 4]⟩ ∧
    from_blob BlobKind.kint (5:Int) = some (5:Int) ∧
    to_blob BlobKind.kint (5:Int) = (5:Int) :=
  ⟨blob_codec_round_trip.1 BlobKind.kndarray ⟨[2], [3, 4]⟩,
   rfl,
   blob_codec_round_trip.2 BlobKind.kint (5:Int) (5:Int) rfl⟩

/-- C3: the capacity invariant fails in the code.  A store namespace
holding three rows (reachable across runs, since save never deletes rows
that were evicted from memory) is loaded in full at attach time with no
truncation, so with max_size 2 the in-memory cache has size 3 immediately
after attach; a subsequent miss pops one entry and inserts one, so the
size stays 3 and never returns below capacity. -/
theorem attach_overfills_cache :
    (load_cache_with_hash BlobKind.kint "f" "h"
        ⟨[("f", "h")], [("f", [("k1", (1:Int)), ("k2", (2:Int)), ("k3", (3:Int))])]⟩).2
      = some [("k1", (1:Int)), ("k2", (2:Int)), ("k3", (3:Int))] ∧
    ¬ ([("k1", (1:Int)), ("k2", 2), ("k3", 3)] : OD Int).length ≤ 2 ∧
    ((wrapper 2 (pureF fun _ => (0:Int)) ()
        [("k1", (1:Int)), ("k2", 2), ("k3", 3)] "k4").2.1).length = 3 := by
  refine ⟨by decide, by decide, by decide⟩

/-- C4: when the stored fingerprint differs from the current one, the
next attach drops every entry of the namespace: after function_setup the
table is empty, the new fingerprint is recorded, and the load that
follows returns an empty cache (full invalidation, never partial). -/
theorem changed_fingerprint_full_invalidation (bt : BlobKind)
    (fname cur stored : String) (db : DB (BlobTy bt))
    (hstored : odLookup db.hashes fname = some stored) (hne : stored ≠ cur) :
    odLookup (function_setup fname cur db).tables fname = some [] ∧
    odLookup (function_setup fname cur db).hashes fname = some cur ∧
    (load_cache_with_hash bt fname cur db).2 = some [] := by
  have hsetup : function_setup fname cur db
      = { hashes := odInsert db.hashes fname cur
          tables := odInsert db.tables fname [] } := by
    simp [function_setup, hstored, hne]
  refine ⟨?_, ?_, ?_⟩
  · rw [hsetup]
    exact odLookup_insert_self db.tables fname []
  · rw [hsetup]
    exact odLookup_insert_self db.hashes fname cur
  · simp only [load_cache_with_hash, hsetup]
    rw [odLookup_insert_self db.tables fname []]
    rfl

/-- Witness for C4: a concrete database with a stale fingerprint. -/
theorem changed_fingerprint_full_invalidation_witness :
    odLookup (DB.hashes ⟨[("f", "old")], [("f", [("k", (5:Int))])]⟩) "f" = some "old" ∧
    ("old" : String) ≠ "new" ∧
    (load_cache_with_hash BlobKind.kint "f" "new"
        ⟨[("f", "old")], [("f", [("k", (5:Int))])]⟩).2 = some [] :=
  ⟨by decide, by decide,
   (changed_fingerprint_full_invalidation BlobKind.kint "f" "new" "old"
     ⟨[("f", "old")], [("f", [("k", (5:Int))])]⟩ (by decide) (by decide)).2.2⟩

/-- C9 counterexample: the claim that registration fails immediately for
an unsupported kind is false at the concrete kind kstr: the decorator
registers the computation and loads an empty cache where the spec-side
validation refuses, and the first encode in py-persistent silently
returns None. -/
theorem unsupported_kind_registration_succeeds :
    (decorator_attach BlobKind.kstr "f" "h" ⟨[], []⟩).2 = some [] ∧
    attach_spec BlobKind.kstr "f" "h" ⟨[], []⟩ = none ∧
    pyToBlob BlobKind.kstr "v" = none := by
  refine ⟨by decide, by decide, rfl⟩

/-- C9 amended: registration never validates the declared kind: attaching
any kind on a fresh store succeeds and yields an empty cache; an
unsupported kind surfaces only at first use, where the py-persistent
codec silently returns None and the hache codec passes the value through
unchanged. -/
theorem registration_never_validates_kind (bt : BlobKind) (fname cur : String) :
    (decorator_attach bt fname cur ⟨[], []⟩).2 = some [] ∧
    (bt ∉ supportedKinds → ∀ v : ValueTy bt, pyToBlob bt v = none) ∧
    (∀ v : ValueTy BlobKind.kstr, to_blob BlobKind.kstr v = v) := by
  refine ⟨?_, ?_, fun v => rfl⟩
  · simp [decorator_attach, load_cache_with_hash, function_setup, odLookup,
      odInsert, load_cache, load_rows]
  · intro hbt v
    cases bt with
    | kint => exact absurd (by simp [supportedKinds]) hbt
    | kndarray => exact absurd (by simp [supportedKinds]) hbt
    | kstr => rfl

/-- Witness for C9 amended, at the unsupported kind kstr. -/
theorem registration_never_validates_kind_witness :
    (decorator_attach BlobKind.kstr "g" "h2" ⟨[], []⟩).2 = some [] ∧
    BlobKind.kstr ∉ supportedKinds ∧
    pyToBlob BlobKind.kstr "w" = none :=
  ⟨(registration_never_validates_kind BlobKind.kstr "g" "h2").1,
   by decide,
   (registration_never_validates_kind BlobKind.kstr "g" "h2").2.1 (by decide) "w"⟩

/-- C2: starting from an empty cache with capacity `c = kr.length + 1 ≥ 1`,
inserting the `c + 1` distinct keys `k₀ :: kr ++ [kl]` with no intervening
reads leaves exactly the last `c` keys: the first-inserted key `k₀` is
absent, and each of the remaining `c` keys is present; the final miss
evicts the least recently used entry before inserting because the size
has reached capacity. -/
theorem lru_evicts_first_inserted {V : Type} (val : String → V)
    (c : Nat) (k₀ kl : String) (kr : List String)
    (hnd : (k₀ :: (kr ++ [kl])).Nodup) (hc : c = kr.length + 1) :
    (runCalls c (pureF val) () [] (k₀ :: (kr ++ [kl]))).2
        = (kr ++ [kl]).map (fun k => (k, val k)) ∧
    odLookup (runCalls c (pureF val) () [] (k₀ :: (kr ++ [kl]))).2 k₀ = none ∧
    ∀ k ∈ kr ++ [kl],
      odLookup (runCalls c (pureF val) () [] (k₀ :: (kr ++ [kl]))).2 k
        = some (val k) := by
  subst hc
  simp only [List.nodup_cons] at hnd
  obtain ⟨hk₀, hnd₂⟩ := hnd
  have hk₀kr : k₀ ∉ kr := fun h => hk₀ (List.mem_append_left _ h)
  have hk₀kl : k₀ ≠ kl := fun h => hk₀ (List.mem_append_right _ (by simp [h]))
  obtain ⟨hkrnd, hklnd, hdisj⟩ := List.nodup_append.mp hnd₂
  have hklkr : kl ∉ kr := fun h => hdisj h (by simp)
  have h₁ : wrapper (kr.length + 1) (pureF val) () [] k₀
      = ((), [(k₀, val k₀)], Except.ok (val k₀)) := by
    have h := wrapper_miss_room val (kr.length + 1) [] k₀ rfl (by simp)
    simpa using h
  have h₂ : runCalls (kr.length + 1) (pureF val) () [(k₀, val k₀)] kr
      = ((), (k₀, val k₀) :: kr.map fun k => (k, val k)) := by
    have h := runCalls_fresh val (kr.length + 1) kr [(k₀, val k₀)] hkrnd
      (fun k hk => by
        have hne : k₀ ≠ k := fun hcontra => hk₀kr (hcontra ▸ hk)
        simp [odLookup, hne])
      (by simp only [List.length_cons, List.length_nil]; omega)
    simpa using h
  have hcache₂ : ((k₀, val k₀) :: kr.map fun k => (k, val k))
      = (k₀ :: kr).map fun k => (k, val k) := by simp
  have h₃ : odLookup ((k₀, val k₀) :: kr.map fun k => (k, val k)) kl = none := by
    rw [hcache₂]
    refine odLookup_map_none val (k₀ :: kr) kl ?_
    simp only [List.mem_cons, not_or]
    exact ⟨fun h => hk₀kl h.symm, hklkr⟩
  have h₄ : wrapper (kr.length + 1) (pureF val) ()
      ((k₀, val k₀) :: kr.map fun k => (k, val k)) kl
      = ((), (kr.map fun k => (k, val k)) ++ [(kl, val kl)], Except.ok (val kl)) := by
    simp only [wrapper, h₃, pureF]
    rw [if_pos (by simp)]
    rw [odInsert_fresh _ kl (val kl) (odLookup_map_none val kr kl hklkr)]
  have hfull : runCalls (kr.length + 1) (pureF val) () [] (k₀ :: (kr ++ [kl]))
      = ((), (kr ++ [kl]).map fun k => (k, val k)) := by
    have e₁ : runCalls (kr.length + 1) (pureF val) () [] (k₀ :: (kr ++ [kl]))
        = runCalls (kr.length + 1) (pureF val) () [(k₀, val k₀)] (kr ++ [kl]) := by
      rw [runCalls_cons, h₁]
    have e₂ : runCalls (kr.length + 1) (pureF val) () [(k₀, val k₀)] (kr ++ [kl])
        = runCalls (kr.length + 1) (pureF val) ()
            ((k₀, val k₀) :: kr.map fun k => (k, val k)) [kl] := by
      rw [runCalls_append, h₂]
    have e₃ : runCalls (kr.length + 1) (pureF val) ()
        ((k₀, val k₀) :: kr.map fun k => (k, val k)) [kl]
        = ((), (kr.map fun k => (k, val k)) ++ [(kl, val kl)]) := by
      rw [runCalls_cons, h₄]
      rfl
    rw [e₁, e₂, e₃]
    simp
  refine ⟨?_, ?_, ?_⟩
  · rw [hfull]
  · rw [hfull]
    exact odLookup_map_none val (kr ++ [kl]) k₀ hk₀
  · intro k hk
    rw [hfull]
    exact odLookup_map_self val (kr ++ [kl]) k hk

/-- Witness for C2: capacity 2, keys a, b, c; after the three misses the
key a is absent and b, c are present. -/
theorem lru_evicts_first_inserted_witness :
    (("a" : String) :: (["b"] ++ ["c"])).Nodup ∧ (2:Nat) = (["b"] : List String).length + 1 ∧
    odLookup (runCalls 2 (pureF fun _ => (0:Nat)) () [] ("a" :: (["b"] ++ ["c"]))).2 "a"
      = none ∧
    ∀ k ∈ (["b"] ++ ["c"] : List String),
      odLookup (runCalls 2 (pureF fun _ => (0:Nat)) () [] ("a" :: (["b"] ++ ["c"]))).2 k
        = some 0 := by
  refine ⟨by decide, by decide, ?_, ?_⟩
  · exact (lru_evicts_first_inserted (fun _ => (0:Nat)) 2 "a" "c" ["b"]
      (by decide) (by decide)).2.1
  · intro k hk
    exact (lru_evicts_first_inserted (fun _ => (0:Nat)) 2 "a" "c" ["b"]
      (by decide) (by decide)).2.2 k hk

/-- C5: when the fingerprint is unchanged between the flush at detach and
the next attach, every entry resident in the in-memory cache at detach is
present after the next attach with the same value: saving then loading
round-trips the cache contents through the store and the blob codec. -/
theorem persistence_round_trip (bt : BlobKind) (fname cur : String)
    (db : DB (BlobTy bt)) (cache : OD (ValueTy bt))
    (hh : odLookup db.hashes fname = some cur)
    (hnd : (keysOf cache).Nodup)
    (hrownd : (keysOf ((odLookup db.tables fname).getD [])).Nodup)
    (hrowdec : ∀ r ∈ (odLookup db.tables fname).getD [],
      (from_blob bt r.2).isSome = true) :
    ∃ loaded,
      (load_cache_with_hash bt fname cur
          (save_cache_with_hash bt fname cur cache db)).2 = some loaded ∧
      ∀ kv ∈ cache, odLookup loaded kv.1 = some kv.2 := by
  have hsetup : function_setup fname cur db = db :=
    function_setup_unchanged fname cur db hh
  have hsave : save_cache_with_hash bt fname cur cache db
      = { db with tables := odInsert db.tables fname (upsert_rows bt ((odLookup db.tables fname).getD []) cache) } := by
    simp only [save_cache_with_hash, hsetup]
  have hsetup₂ : function_setup fname cur (save_cache_with_hash bt fname cur cache db)
      = save_cache_with_hash bt fname cur cache db := by
    apply function_setup_unchanged
    rw [hsave]
    exact hh
  have htable : odLookup (save_cache_with_hash bt fname cur cache db).tables fname
      = some (upsert_rows bt ((odLookup db.tables fname).getD []) cache) := by
    rw [hsave]
    exact odLookup_insert_self db.tables fname _
  have hRnd : (keysOf (upsert_rows bt ((odLookup db.tables fname).getD []) cache)).Nodup :=
    keysOf_upsert_rows_nodup bt cache _ hrownd
  have hRdec : ∀ r ∈ upsert_rows bt ((odLookup db.tables fname).getD []) cache,
      (from_blob bt r.2).isSome = true := by
    intro r hr
    rcases mem_upsert_rows bt cache _ r hr with h | h
    · exact hrowdec r h
    · rcases h with ⟨kv, hkv, hrkv⟩
      rw [hrkv]
      simp [from_blob_to_blob bt kv.2]
  obtain ⟨loaded, hload⟩ := load_rows_total bt
    (upsert_rows bt ((odLookup db.tables fname).getD []) cache) [] hRdec
  refine ⟨loaded, ?_, ?_⟩
  · simp only [load_cache_with_hash, hsetup₂, htable, Option.getD_some, load_cache]
    exact hload
  · intro kv hkv
    have hlookR : odLookup (upsert_rows bt ((odLookup db.tables fname).getD []) cache) kv.1
        = some (to_blob bt kv.2) :=
      odLookup_upsert_rows_of_mem bt cache _ hnd kv hkv
    exact load_rows_lookup bt kv.1 _ [] loaded (to_blob bt kv.2) kv.2 hload hRnd hlookR
      (from_blob_to_blob bt kv.2)

/-- Witness for C5: a concrete store with a matching fingerprint and a
pre-existing decodable row, and a one-entry cache flushed at detach. -/
theorem persistence_round_trip_witness :
    odLookup (DB.hashes ⟨[("f", "h")], [("f", [("old", (9:Int))])]⟩) "f" = some "h" ∧
    (keysOf [("k1", (7:Int))]).Nodup ∧
    (keysOf ((odLookup (DB.tables ⟨[("f", "h")], [("f", [("old", (9:Int))])]⟩) "f").getD [])).Nodup ∧
    (∀ r ∈ (odLookup (DB.tables ⟨[("f", "h")], [("f", [("old", (9:Int))])]⟩) "f").getD [],
      (from_blob BlobKind.kint r.2).isSome = true) ∧
    ∃ loaded,
      (load_cache_with_hash BlobKind.kint "f" "h"
          (save_cache_with_hash BlobKind.kint "f" "h" [("k1", (7:Int))]
            ⟨[("f", "h")], [("f", [("old", (9:Int))])]⟩)).2 = some loaded ∧
      ∀ kv ∈ ([("k1", (7:Int))] : OD (ValueTy BlobKind.kint)),
        odLookup loaded kv.1 = some kv.2 :=
  ⟨by decide, by decide, by decide, by decide,
   persistence_round_trip BlobKind.kint "f" "h"
     ⟨[("f", "h")], [("f", [("old", (9:Int))])]⟩ [("k1", (7:Int))]
     (by decide) (by decide) (by decide) (by decide)⟩

end Hache
